import Mathlib

/-!
Verification of the operation-log head-resolution subsystem of the
repository (`src/lib/src/op_heads_store.rs`).

The subsystem is embedded shallowly:

* the `Operation` data model is translated directly from the source
  (`id`, `parent_ids`, `view_id`, `metadata.time.end.timestamp`);
* the operation store is a finite list of records, read by content
  address (`read_operation`);
* `resolve_op_heads` is an explicit function of an oracle environment
  `Env` recording what each collaborator (op-heads store, op store, lock,
  resolver) answers, and it returns both its result and the trace of the
  interactions it performed, so that claims about which collaborators are
  invoked, how often and with which arguments become statements about the
  trace;
* the generic DAG ancestor filter `dag_walk::heads_ok` is called by
  `resolve_op_heads` but its defining file (`src/lib/src/dag_walk.rs`) is
  not among the provided sources, so it is modelled from the spec's
  contract (§4.2) as an executable frontier iteration whose result is
  proved to agree with transitive-ancestor reachability.
-/

/-- Operation ids are content addresses (hashes); modelled as naturals. -/
abbrev OperationId := Nat

/-- A point in time; only the millisecond `timestamp` matters here. -/
structure Timestamp where
  timestamp : Int
deriving DecidableEq, Repr

/-- The `time` interval of operation metadata.  `end` is a Lean keyword,
so the end bound is called `stop`. -/
structure TimestampRange where
  start : Timestamp
  stop : Timestamp
deriving DecidableEq, Repr

/-- Operation metadata; author/hostname/description are irrelevant to
resolution and omitted. -/
structure OperationMetadata where
  time : TimestampRange
deriving DecidableEq, Repr

/-- An operation of the log, bundling its id with its record data, as the
source's `Operation` bundles an `OperationId` with `op_store::Operation`. -/
structure Operation where
  id : OperationId
  parent_ids : List OperationId
  view_id : Nat
  metadata : OperationMetadata
deriving DecidableEq, Repr

/-- Errors of the operation store.  With the store modelled as a finite
list of records, the error that arises is a missing object. -/
inductive OpStoreError where
  | objectNotFound
deriving DecidableEq, Repr

/-- `OpHeadsStoreError`: read / write / lock failures of the op-heads
store (the boxed dynamic causes carry no information used here). -/
inductive OpHeadsStoreError where
  | read
  | write (new_op_id : OperationId)
  | lock
deriving DecidableEq, Repr

/-- The caller-supplied error type `E` of `resolve_op_heads`, together
with its required `From` conversions (`OpHeadResolutionError`,
`OpHeadsStoreError`, `OpStoreError`) and opaque resolver errors: modelled
as the free sum of the four. -/
inductive ResolveErr (RErr : Type) where
  | noHeads
  | opHeadsStore (e : OpHeadsStoreError)
  | opStore (e : OpStoreError)
  | resolver (e : RErr)
deriving DecidableEq, Repr

/-- `op_store.read_operation`: look up a record by its content address. -/
def readOp (store : List Operation) (id : OperationId) :
    Except OpStoreError Operation :=
  match store.find? (fun op => op.id == id) with
  | some op => .ok op
  | none => .error .objectNotFound

/-- Direct parent ids of `id` as recorded in `store` (`[]` when the id is
not stored; lookups performed by the traversal itself instead fail). -/
def parentIdsOf (store : List Operation) (id : OperationId) :
    List OperationId :=
  match store.find? (fun op => op.id == id) with
  | some op => op.parent_ids
  | none => []

/-- Read every id of the list and concatenate the parent ids of each,
failing on the first unresolvable id. -/
def expandParents (store : List Operation) :
    List OperationId → Except OpStoreError (List OperationId)
  | [] => .ok []
  | id :: rest =>
      match readOp store id with
      | .error e => .error e
      | .ok op =>
        match expandParents store rest with
        | .error e => .error e
        | .ok ps => .ok (op.parent_ids ++ ps)

/-- One frontier round of the ancestor traversal: keep the ids seen so
far and add the parents of each of them. -/
def expandOnce (store : List Operation) (ids : List OperationId) :
    Except OpStoreError (List OperationId) :=
  (expandParents store ids).map (fun ps => ids ++ ps)

/-- Iterate `expandOnce`, deduplicating between rounds. -/
def reachRounds (store : List Operation) :
    Nat → List OperationId → Except OpStoreError (List OperationId)
  | 0, ids => .ok ids
  | n + 1, ids =>
      match expandOnce store ids with
      | .error e => .error e
      | .ok next => reachRounds store n next.dedup

/-- Enough rounds for `reachRounds` to reach the ancestor closure: every
id the frontier can ever contain comes from the initial frontier or from
some stored record's `parent_ids`, so one round per such id suffices. -/
def closureFuel (store : List Operation) (init : List OperationId) : Nat :=
  init.length + (store.flatMap (fun op => op.parent_ids)).length + 1

/-- Modelled from the spec: `dag_walk::heads_ok`, the generic DAG
ancestor filter (§4.2), is called by `resolve_op_heads` but its source
file `src/lib/src/dag_walk.rs` is not among the provided sources.
Following the spec's contract, instantiated at its use site (nodes are
operations, the identity function takes `op.id`, the parents function
reads each of `op.parent_ids` from the operation store): return the
subset of `start` whose members are not (transitive) ancestors of any
node of the input set, propagating a lookup error when an ancestor id
referenced during the traversal is unresolvable. -/
def heads_ok (store : List Operation) (start : List Operation) :
    Except OpStoreError (List Operation) :=
  match reachRounds store
      (closureFuel store ((start.flatMap (fun op => op.parent_ids)).dedup))
      ((start.flatMap (fun op => op.parent_ids)).dedup) with
  | .error e => .error e
  | .ok anc => .ok (start.filter (fun op => !anc.contains op.id))

/-- One parent step: `y` is a direct parent, per the store, of `x`. -/
def stepParent (store : List Operation) (x y : OperationId) : Prop :=
  y ∈ parentIdsOf store x

/-- `a` is a (transitive) ancestor of `b`: starting from `b`, one or more
parent steps through the store reach `a`. -/
def isAncestor (store : List Operation) (a b : OperationId) : Prop :=
  Relation.TransGen (stepParent store) b a

/-- `a` is a (transitive) ancestor of the node `y`: some parent id
recorded in `y` itself reaches `a` by zero or more further parent steps
through the store.  (The traversal's first step uses the node's own
parent list, exactly as the filter's parents function does; for a node
that is stored under its id this coincides with
`isAncestor store a y.id`.) -/
def isAncestorOfOp (store : List Operation) (a : OperationId)
    (y : Operation) : Prop :=
  ∃ i ∈ y.parent_ids, Relation.ReflTransGen (stepParent store) i a

/-- An id set all of whose members are resolvable in the store and whose
members' parents stay inside the set. -/
def ClosedIds (store : List Operation) (ids : List OperationId) : Prop :=
  (∀ a ∈ ids, ∃ op, readOp store a = .ok op) ∧
  (∀ a ∈ ids, ∀ b ∈ parentIdsOf store a, b ∈ ids)

/-- Observable interactions of `resolve_op_heads` with its collaborators.
Parent lookups inside the ancestor filter are operation-store reads too
but are not traced individually; the filter invocation itself is the
`ancestorFilter` event.  `writeOperation` is the op-store write
capability; the orchestrator itself never emits it. -/
inductive Event where
  | getOpHeads
  | lockStore
  | readOperation (id : OperationId)
  | ancestorFilter (ops : List Operation)
  | updateOpHeads (old_ids : List OperationId) (new_id : OperationId)
  | resolverCall (ops : List Operation)
  | writeOperation (op : Operation)
deriving DecidableEq, Repr

/-- Oracle environment of one `resolve_op_heads` run: what each
collaborator answers.  `get_op_heads` is called at most twice — once
before and once after taking the lock — and the two calls may observe
different values (that is the race the algorithm tolerates), so the two
observations are separate fields `heads1` and `heads2`. -/
structure Env (RErr : Type) where
  heads1 : Except OpHeadsStoreError (List OperationId)
  lockResult : Except OpHeadsStoreError Unit
  heads2 : Except OpHeadsStoreError (List OperationId)
  store : List Operation
  updateResult : List OperationId → OperationId → Except OpHeadsStoreError Unit
  resolver : List Operation → Except RErr Operation

/-- Load every head operation (source lines 120–126, `try_collect`):
reads in order, stopping at the first failure, recording each attempted
read. -/
def readOps (store : List Operation) :
    List OperationId → Except OpStoreError (List Operation) × List Event
  | [] => (.ok [], [])
  | id :: rest =>
    match readOp store id with
    | .error e => (.error e, [.readOperation id])
    | .ok op =>
      let (r, tr) := readOps store rest
      (r.map (fun ops => op :: ops), .readOperation id :: tr)

/-- The sort key of source line 149:
`op_heads.sort_by_key(|op| op.metadata().time.end.timestamp)`. -/
def byEndTimestamp (a b : Operation) : Bool :=
  decide (a.metadata.time.stop.timestamp ≤ b.metadata.time.stop.timestamp)

/-- The stale ids to retire (source lines 129–140): the ids of the
loaded heads (`op_head_ids_before`, a set, hence deduplicated) minus the
ids of the filtered heads (`op_head_ids_after`). -/
def ancestorIds (ops filtered : List Operation) : List OperationId :=
  ((ops.map (fun op => op.id)).dedup).filter
    (fun i => !(filtered.map (fun op => op.id)).contains i)

/-- The slow path of `resolve_op_heads` (source lines 99–155): lock,
re-read the heads, and resolve.  Split out of `resolve_op_heads` for
proof modularity; the trace it returns is the part of the run's trace
after the initial `get_op_heads`. -/
def resolveSlowPath {RErr : Type} (env : Env RErr) :
    Except (ResolveErr RErr) Operation × List Event :=
  match env.lockResult with
      | .error e => (.error (.opHeadsStore e), [.lockStore])
      | .ok _ =>
        match env.heads2 with
        | .error e => (.error (.opHeadsStore e),
            [.lockStore, .getOpHeads])
        | .ok [] => (.error .noHeads, [.lockStore, .getOpHeads])
        | .ok [op_head_id] =>
          match readOp env.store op_head_id with
          | .error e => (.error (.opStore e),
              [.lockStore, .getOpHeads, .readOperation op_head_id])
          | .ok op => (.ok op,
              [.lockStore, .getOpHeads, .readOperation op_head_id])
        | .ok op_head_ids =>
          match readOps env.store op_head_ids with
          | (.error e, rtr) =>
              (.error (.opStore e), [.lockStore, .getOpHeads] ++ rtr)
          | (.ok ops, rtr) =>
            match heads_ok env.store ops with
            | .error e => (.error (.opStore e),
                [.lockStore, .getOpHeads] ++ rtr
                  ++ [.ancestorFilter ops])
            | .ok [op_head] =>
                (match env.updateResult (ancestorIds ops [op_head]) op_head.id with
                 | .error e => .error (.opHeadsStore e)
                 | .ok _ => .ok op_head,
                 [.lockStore, .getOpHeads] ++ rtr
                   ++ [.ancestorFilter ops,
                       .updateOpHeads (ancestorIds ops [op_head]) op_head.id])
            | .ok filtered =>
                match env.resolver (filtered.mergeSort byEndTimestamp) with
                | .error e => (.error (.resolver e),
                    [.lockStore, .getOpHeads] ++ rtr
                      ++ [.ancestorFilter ops,
                          .resolverCall (filtered.mergeSort byEndTimestamp)])
                | .ok new_op =>
                  (match env.updateResult
                      (ancestorIds ops filtered ++ new_op.parent_ids) new_op.id with
                   | .error e => .error (.opHeadsStore e)
                   | .ok _ => .ok new_op,
                   [.lockStore, .getOpHeads] ++ rtr
                     ++ [.ancestorFilter ops,
                         .resolverCall (filtered.mergeSort byEndTimestamp),
                         .updateOpHeads
                           (ancestorIds ops filtered ++ new_op.parent_ids)
                           new_op.id])

/-- Shallow embedding of `resolve_op_heads` (source lines 80–155),
returning its result together with the trace of collaborator
interactions: read the heads, return directly when there is exactly one
(fast path, lines 91–97), otherwise run the slow path. -/
def resolve_op_heads {RErr : Type} (env : Env RErr) :
    Except (ResolveErr RErr) Operation × List Event :=
  match env.heads1 with
  | .error e => (.error (.opHeadsStore e), [.getOpHeads])
  | .ok [operation_id] =>
      match readOp env.store operation_id with
      | .error e => (.error (.opStore e),
          [.getOpHeads, .readOperation operation_id])
      | .ok op => (.ok op, [.getOpHeads, .readOperation operation_id])
  | .ok _ =>
      let (res, tr) := resolveSlowPath env
      (res, .getOpHeads :: tr)

/-- The result component of a run. -/
def resultOf {RErr : Type} (env : Env RErr) :
    Except (ResolveErr RErr) Operation :=
  (resolve_op_heads env).1

/-- The trace component of a run. -/
def traceOf {RErr : Type} (env : Env RErr) : List Event :=
  (resolve_op_heads env).2

/-- Recognise `updateOpHeads` events. -/
def Event.isUpdate : Event → Bool
  | .updateOpHeads _ _ => true
  | _ => false

/-- Recognise `resolverCall` events. -/
def Event.isResolverCall : Event → Bool
  | .resolverCall _ => true
  | _ => false

/-- Recognise `writeOperation` events. -/
def Event.isWrite : Event → Bool
  | .writeOperation _ => true
  | _ => false

/-- Recognise `lockStore` events. -/
def Event.isLock : Event → Bool
  | .lockStore => true
  | _ => false

/-- Recognise `ancestorFilter` events. -/
def Event.isFilter : Event → Bool
  | .ancestorFilter _ => true
  | _ => false

/-- Metadata whose end timestamp is `n` (start `n - 1`). -/
def wTime (n : Int) : OperationMetadata := ⟨⟨⟨n - 1⟩, ⟨n⟩⟩⟩

/-- Sample root operation for concrete witnesses. -/
def wR : Operation := ⟨0, [], 100, wTime 10⟩

/-- Sample child of `wR`. -/
def wA : Operation := ⟨1, [0], 101, wTime 20⟩

/-- Sample child of `wA` (so `wR ← wA ← wB` is a chain). -/
def wB : Operation := ⟨2, [1], 102, wTime 30⟩

/-- Sample second child of `wR` (so `{wA, wC}` is genuine divergence). -/
def wC : Operation := ⟨3, [0], 103, wTime 25⟩

/-- Sample merge of `wA` and `wC`, as a resolver would produce it. -/
def wM : Operation := ⟨9, [1, 3], 109, wTime 99⟩

/-- Sample operation store. -/
def wStore : List Operation := [wR, wA, wB, wC]

/-- A benign sample oracle environment; witnesses override fields. -/
def wEnv : Env Unit where
  heads1 := .ok [1, 2]
  lockResult := .ok ()
  heads2 := .ok [1, 2]
  store := wStore
  updateResult := fun _ _ => .ok ()
  resolver := fun _ => .ok wM

/-- A successful `read_operation` returns the operation stored at the
requested id, so its `id` field is the requested id. -/
theorem readOp_ok_id {store : List Operation} {id : OperationId}
    {op : Operation} (h : readOp store id = .ok op) : op.id = id := by
  unfold readOp at h
  rcases hf : store.find? (fun o => o.id == id) with _ | o
  · rw [hf] at h; cases h
  · rw [hf] at h
    injection h with h
    subst h
    have := List.find?_some hf
    simpa using this

/-- When the initial read yields exactly one head, the run is the fast
path. -/
theorem resolve_fast {RErr : Type} (env : Env RErr) (id : OperationId)
    (h1 : env.heads1 = .ok [id]) :
    resolve_op_heads env =
      (match readOp env.store id with
       | .error e => .error (.opStore e)
       | .ok op => .ok op,
       [.getOpHeads, .readOperation id]) := by
  unfold resolve_op_heads
  rw [h1]
  rcases hr : readOp env.store id with e | op <;> simp [hr]

/-- When the initial read does not yield exactly one head, the run is the
initial read followed by the slow path. -/
theorem resolve_slow {RErr : Type} (env : Env RErr) (ids1 : List OperationId)
    (h1 : env.heads1 = .ok ids1) (hn : ids1.length ≠ 1) :
    resolve_op_heads env =
      ((resolveSlowPath env).1, .getOpHeads :: (resolveSlowPath env).2) := by
  unfold resolve_op_heads
  rw [h1]
  rcases ids1 with _ | ⟨a, _ | ⟨b, t⟩⟩
  · rfl
  · exact absurd rfl hn
  · rfl

/-- Loading the heads succeeds exactly with the operations stored at the
requested ids, in order, and records one read event per id. -/
theorem readOps_ok {store : List Operation} :
    ∀ {ids : List OperationId} {ops : List Operation} {tr : List Event},
      readOps store ids = (.ok ops, tr) →
      ops.map (fun op => op.id) = ids ∧ tr = ids.map .readOperation := by
  intro ids
  induction ids with
  | nil =>
    intro ops tr h
    unfold readOps at h
    simp only [Prod.mk.injEq] at h
    obtain ⟨h1, h2⟩ := h
    injection h1 with h1
    simp [← h1, ← h2]
  | cons id rest ih =>
    intro ops tr h
    unfold readOps at h
    rcases hr : readOp store id with e | op <;> rw [hr] at h
    · simp only [Prod.mk.injEq] at h
      cases h.1
    · rcases hrest : readOps store rest with ⟨r, tr'⟩
      rw [hrest] at h
      simp only [Prod.mk.injEq] at h
      obtain ⟨h1, h2⟩ := h
      rcases r with e | ops' <;> simp only [Except.map] at h1
      · cases h1
      · injection h1 with h1
        obtain ⟨hmap, htr⟩ := ih hrest
        subst h1 h2
        simp [hmap, htr, readOp_ok_id hr]

/-- C3: when the op-heads store returns exactly one id on the initial
read, `resolve_op_heads` reads that operation from the op store and
returns it (the read's outcome is the result), and the trace is just the
initial head read and that single operation read — in particular the lock
is never taken and `update_op_heads` is never called. -/
theorem C3_single_head_fast_path {RErr : Type} (env : Env RErr)
    (id : OperationId) (h1 : env.heads1 = .ok [id]) :
    resultOf env =
      (match readOp env.store id with
       | .error e => .error (.opStore e)
       | .ok op => .ok op) ∧
    traceOf env = [.getOpHeads, .readOperation id] ∧
    (traceOf env).filter Event.isLock = [] ∧
    (traceOf env).filter Event.isUpdate = [] := by
  have h := resolve_fast env id h1
  refine ⟨?_, ?_, ?_, ?_⟩ <;>
    simp [resultOf, traceOf, h, Event.isLock, Event.isUpdate]

/-- Witness for C3: a store with one head `wB`. -/
theorem C3_witness :
    resultOf { wEnv with heads1 := .ok [2] } = .ok wB ∧
    traceOf { wEnv with heads1 := .ok [2] } =
      [.getOpHeads, .readOperation 2] := by
  obtain ⟨hr, ht, -, -⟩ :=
    C3_single_head_fast_path { wEnv with heads1 := .ok [2] } 2 rfl
  refine ⟨?_, ht⟩
  rw [hr]
  rfl

/-- C4: when the initial read does not yield exactly one head and the
post-lock re-read yields an empty head set, `resolve_op_heads` fails with
the `NoHeads` error; the trace shows no `update_op_heads` call and no
operation-store write. -/
theorem C4_empty_post_lock_no_heads {RErr : Type} (env : Env RErr)
    (ids1 : List OperationId) (h1 : env.heads1 = .ok ids1)
    (hn : ids1.length ≠ 1) (hl : env.lockResult = .ok ())
    (h2 : env.heads2 = .ok []) :
    resultOf env = .error .noHeads ∧
    traceOf env = [.getOpHeads, .lockStore, .getOpHeads] ∧
    (traceOf env).filter Event.isUpdate = [] ∧
    (traceOf env).filter Event.isWrite = [] := by
  have h := resolve_slow env ids1 h1 hn
  have hs : resolveSlowPath env =
      (.error .noHeads, [.lockStore, .getOpHeads]) := by
    unfold resolveSlowPath
    rw [hl, h2]
  refine ⟨?_, ?_, ?_, ?_⟩ <;>
    simp [resultOf, traceOf, h, hs, Event.isUpdate, Event.isWrite]

/-- Witness for C4: two stale heads observed first, none after locking. -/
theorem C4_witness :
    resultOf { wEnv with heads2 := .ok [] } = .error .noHeads ∧
    traceOf { wEnv with heads2 := .ok [] } =
      [.getOpHeads, .lockStore, .getOpHeads] := by
  obtain ⟨hr, ht, -, -⟩ :=
    C4_empty_post_lock_no_heads { wEnv with heads2 := .ok [] } [1, 2]
      rfl (by decide) rfl rfl
  exact ⟨hr, ht⟩

/-- C7: when the post-lock re-read yields exactly one id,
`resolve_op_heads` loads that operation and returns it (the read's
outcome is the result); the trace shows no ancestor-filter invocation, no
resolver call and no `update_op_heads` call. -/
theorem C7_post_lock_single_head {RErr : Type} (env : Env RErr)
    (ids1 : List OperationId) (id : OperationId)
    (h1 : env.heads1 = .ok ids1) (hn : ids1.length ≠ 1)
    (hl : env.lockResult = .ok ()) (h2 : env.heads2 = .ok [id]) :
    resultOf env =
      (match readOp env.store id with
       | .error e => .error (.opStore e)
       | .ok op => .ok op) ∧
    traceOf env = [.getOpHeads, .lockStore, .getOpHeads, .readOperation id] ∧
    (traceOf env).filter Event.isFilter = [] ∧
    (traceOf env).filter Event.isResolverCall = [] ∧
    (traceOf env).filter Event.isUpdate = [] := by
  have h := resolve_slow env ids1 h1 hn
  have hs : resolveSlowPath env =
      (match readOp env.store id with
       | .error e => .error (.opStore e)
       | .ok op => .ok op,
       [.lockStore, .getOpHeads, .readOperation id]) := by
    unfold resolveSlowPath
    rw [hl, h2]
    rcases hr : readOp env.store id with e | op <;> simp [hr]
  refine ⟨?_, ?_, ?_, ?_, ?_⟩ <;>
    simp [resultOf, traceOf, h, hs, Event.isFilter, Event.isResolverCall,
      Event.isUpdate]

/-- Witness for C7: two heads observed first, exactly one (`wB`) after
locking. -/
theorem C7_witness :
    resultOf { wEnv with heads2 := .ok [2] } = .ok wB ∧
    traceOf { wEnv with heads2 := .ok [2] } =
      [.getOpHeads, .lockStore, .getOpHeads, .readOperation 2] := by
  obtain ⟨hr, ht, -, -, -⟩ :=
    C7_post_lock_single_head { wEnv with heads2 := .ok [2] } [1, 2] 2
      rfl (by decide) rfl rfl
  refine ⟨?_, ht⟩
  rw [hr]
  rfl

/-- A block of read events contains no event of another kind. -/
theorem filter_reads_nil (p : Event → Bool)
    (hp : ∀ id, p (.readOperation id) = false) (ids : List OperationId) :
    (ids.map Event.readOperation).filter p = [] := by
  induction ids with
  | nil => rfl
  | cons id rest ih => simp [List.filter, hp, ih]

/-- Read events are not `updateOpHeads` events. -/
theorem filter_isUpdate_reads (ids : List OperationId) :
    (ids.map Event.readOperation).filter Event.isUpdate = [] :=
  filter_reads_nil Event.isUpdate (fun _ => rfl) ids

/-- Read events are not `resolverCall` events. -/
theorem filter_isResolverCall_reads (ids : List OperationId) :
    (ids.map Event.readOperation).filter Event.isResolverCall = [] :=
  filter_reads_nil Event.isResolverCall (fun _ => rfl) ids

/-- Read events are not `writeOperation` events. -/
theorem filter_isWrite_reads (ids : List OperationId) :
    (ids.map Event.readOperation).filter Event.isWrite = [] :=
  filter_reads_nil Event.isWrite (fun _ => rfl) ids

/-- C2: when the post-lock head set, after ancestor filtering, retains
exactly one operation `b`, `resolve_op_heads` returns `b`, calls
`update_op_heads` exactly once with `old_ids` the (deduplicated) original
post-lock head ids minus `b`'s id and `new_id` equal to `b`'s id, and
never invokes the resolver. -/
theorem C2_staleness_cleanup {RErr : Type} (env : Env RErr)
    (ids1 ids2 : List OperationId) (ops : List Operation) (rtr : List Event)
    (b : Operation)
    (h1 : env.heads1 = .ok ids1) (hn : ids1.length ≠ 1)
    (hl : env.lockResult = .ok ()) (h2 : env.heads2 = .ok ids2)
    (hlen : 2 ≤ ids2.length)
    (hread : readOps env.store ids2 = (.ok ops, rtr))
    (hfilt : heads_ok env.store ops = .ok [b])
    (hupd : env.updateResult (ids2.dedup.filter (fun i => i != b.id)) b.id
      = .ok ()) :
    resultOf env = .ok b ∧
    (traceOf env).filter Event.isUpdate =
      [.updateOpHeads (ids2.dedup.filter (fun i => i != b.id)) b.id] ∧
    (traceOf env).filter Event.isResolverCall = [] := by
  have h := resolve_slow env ids1 h1 hn
  obtain ⟨hmap, htrr⟩ := readOps_ok hread
  have hanc : ancestorIds ops [b] =
      ids2.dedup.filter (fun i => i != b.id) := by
    unfold ancestorIds
    rw [hmap]
    refine List.filter_congr ?_
    intro x _
    rcases eq_or_ne x b.id with rfl | hne
    · simp
    · simp [hne]
  rcases ids2 with _ | ⟨x, _ | ⟨y, t⟩⟩
  · simp at hlen
  · simp at hlen
  · have hs : resolveSlowPath env =
        (.ok b, [.lockStore, .getOpHeads] ++ rtr
          ++ [.ancestorFilter ops,
              .updateOpHeads (ancestorIds ops [b]) b.id]) := by
      unfold resolveSlowPath
      simp only [hl, h2, hread, hfilt, hanc, hupd]
    refine ⟨?_, ?_, ?_⟩ <;>
      simp [resultOf, traceOf, h, hs, htrr, List.filter_append,
        filter_isUpdate_reads, filter_isResolverCall_reads, hanc,
        Event.isUpdate, Event.isResolverCall]

/-- Witness for C2: heads `{wA, wB}` where `wA` is an ancestor of `wB`;
resolution returns `wB` and retires `wA`'s id without a resolver call. -/
theorem C2_witness :
    resultOf wEnv = .ok wB ∧
    (traceOf wEnv).filter Event.isUpdate = [.updateOpHeads [1] 2] ∧
    (traceOf wEnv).filter Event.isResolverCall = [] := by
  obtain ⟨hr, hu, hres⟩ :=
    C2_staleness_cleanup wEnv [1, 2] [1, 2] [wA, wB]
      [.readOperation 1, .readOperation 2] wB
      rfl (by decide) rfl rfl (by decide) rfl rfl rfl
  refine ⟨hr, ?_, hres⟩
  rw [hu]
  rfl

/-- C6: when the resolver is invoked and succeeds, `resolve_op_heads`
calls `update_op_heads` exactly once, with `old_ids` the retired ancestor
ids (original post-lock head ids minus the filtered head ids) followed by
the resolver output's parent ids, and `new_id` the resolver output's id,
and returns the resolver's operation. -/
theorem C6_merge_update {RErr : Type} (env : Env RErr)
    (ids1 ids2 : List OperationId) (ops : List Operation) (rtr : List Event)
    (filtered : List Operation) (new_op : Operation)
    (h1 : env.heads1 = .ok ids1) (hn : ids1.length ≠ 1)
    (hl : env.lockResult = .ok ()) (h2 : env.heads2 = .ok ids2)
    (hlen : 2 ≤ ids2.length)
    (hread : readOps env.store ids2 = (.ok ops, rtr))
    (hfilt : heads_ok env.store ops = .ok filtered)
    (hlen2 : 2 ≤ filtered.length)
    (hres : env.resolver (filtered.mergeSort byEndTimestamp) = .ok new_op)
    (hupd : env.updateResult
      (ids2.dedup.filter
        (fun i => !(filtered.map (fun op => op.id)).contains i)
        ++ new_op.parent_ids) new_op.id = .ok ()) :
    resultOf env = .ok new_op ∧
    (traceOf env).filter Event.isUpdate =
      [.updateOpHeads
        (ids2.dedup.filter
          (fun i => !(filtered.map (fun op => op.id)).contains i)
          ++ new_op.parent_ids) new_op.id] := by
  have h := resolve_slow env ids1 h1 hn
  obtain ⟨hmap, htrr⟩ := readOps_ok hread
  have hanc : ancestorIds ops filtered =
      ids2.dedup.filter
        (fun i => !(filtered.map (fun op => op.id)).contains i) := by
    unfold ancestorIds
    rw [hmap]
  rcases ids2 with _ | ⟨x, _ | ⟨y, t⟩⟩
  · simp at hlen
  · simp at hlen
  · rcases filtered with _ | ⟨f1, _ | ⟨f2, ft⟩⟩
    · simp at hlen2
    · simp at hlen2
    · have hs : resolveSlowPath env =
          (.ok new_op, [.lockStore, .getOpHeads] ++ rtr
            ++ [.ancestorFilter ops,
                .resolverCall ((f1 :: f2 :: ft).mergeSort byEndTimestamp),
                .updateOpHeads
                  (ancestorIds ops (f1 :: f2 :: ft) ++ new_op.parent_ids)
                  new_op.id]) := by
        unfold resolveSlowPath
        simp only [hl, h2, hread, hfilt, hres, hanc, hupd]
      refine ⟨?_, ?_⟩ <;>
        simp [resultOf, traceOf, h, hs, htrr, List.filter_append,
          filter_isUpdate_reads, hanc, Event.isUpdate]

/-- Witness for C6: genuine divergence `{wA, wC}` merged by a resolver
returning `wM`; the single update retires `wM`'s parents. -/
theorem C6_witness :
    resultOf { wEnv with heads1 := .ok [1, 3], heads2 := .ok [1, 3] }
      = .ok wM ∧
    List.filter Event.isUpdate
      (traceOf { wEnv with heads1 := .ok [1, 3], heads2 := .ok [1, 3] })
      = [.updateOpHeads [1, 3] 9] := by
  obtain ⟨hr, hu⟩ :=
    C6_merge_update { wEnv with heads1 := .ok [1, 3], heads2 := .ok [1, 3] }
      [1, 3] [1, 3] [wA, wC] [.readOperation 1, .readOperation 3] [wA, wC] wM
      rfl (by decide) rfl rfl (by decide) rfl rfl (by decide) rfl rfl
  refine ⟨hr, ?_⟩
  rw [hu]
  rfl

/-- The trace of a head-load is a block of read events, whether or not
the load succeeds. -/
theorem readOps_snd_reads (store : List Operation) (ids : List OperationId) :
    ∃ pre : List OperationId,
      (readOps store ids).2 = pre.map Event.readOperation := by
  induction ids with
  | nil => exact ⟨[], rfl⟩
  | cons id rest ih =>
    unfold readOps
    rcases hr : readOp store id with e | op
    · exact ⟨[id], rfl⟩
    · obtain ⟨pre, hpre⟩ := ih
      rcases hrest : readOps store rest with ⟨r, tr⟩
      rw [hrest] at hpre
      refine ⟨id :: pre, ?_⟩
      simp only [hr, hrest, List.map]
      simpa using hpre

/-- C8: every error of a collaborator propagates to the caller, with no
internal retry: (a) a failing initial head read, (b) a failing lock,
(c) a failing post-lock head read, (d) a failing head-operation load —
which also precludes any resolver call or `update_op_heads` call —
(e) a failing parent lookup inside the ancestor filter — likewise —
(f) a failing resolver — after which `update_op_heads` is not called —
and (g)/(h) a failing `update_op_heads` in the cleanup/merge branch. -/
theorem C8_error_propagation {RErr : Type} :
    (∀ (env : Env RErr) e, env.heads1 = .error e →
      resultOf env = .error (.opHeadsStore e) ∧
      traceOf env = [.getOpHeads]) ∧
    (∀ (env : Env RErr) ids1 e, env.heads1 = .ok ids1 → ids1.length ≠ 1 →
      env.lockResult = .error e →
      resultOf env = .error (.opHeadsStore e) ∧
      traceOf env = [.getOpHeads, .lockStore]) ∧
    (∀ (env : Env RErr) ids1 e, env.heads1 = .ok ids1 → ids1.length ≠ 1 →
      env.lockResult = .ok () → env.heads2 = .error e →
      resultOf env = .error (.opHeadsStore e) ∧
      traceOf env = [.getOpHeads, .lockStore, .getOpHeads]) ∧
    (∀ (env : Env RErr) ids1 ids2 e rtr, env.heads1 = .ok ids1 →
      ids1.length ≠ 1 → env.lockResult = .ok () → env.heads2 = .ok ids2 →
      2 ≤ ids2.length → readOps env.store ids2 = (.error e, rtr) →
      resultOf env = .error (.opStore e) ∧
      (traceOf env).filter Event.isResolverCall = [] ∧
      (traceOf env).filter Event.isUpdate = []) ∧
    (∀ (env : Env RErr) ids1 ids2 ops rtr e, env.heads1 = .ok ids1 →
      ids1.length ≠ 1 → env.lockResult = .ok () → env.heads2 = .ok ids2 →
      2 ≤ ids2.length → readOps env.store ids2 = (.ok ops, rtr) →
      heads_ok env.store ops = .error e →
      resultOf env = .error (.opStore e) ∧
      (traceOf env).filter Event.isResolverCall = [] ∧
      (traceOf env).filter Event.isUpdate = []) ∧
    (∀ (env : Env RErr) ids1 ids2 ops rtr filtered e,
      env.heads1 = .ok ids1 → ids1.length ≠ 1 → env.lockResult = .ok () →
      env.heads2 = .ok ids2 → 2 ≤ ids2.length →
      readOps env.store ids2 = (.ok ops, rtr) →
      heads_ok env.store ops = .ok filtered → 2 ≤ filtered.length →
      env.resolver (filtered.mergeSort byEndTimestamp) = .error e →
      resultOf env = .error (.resolver e) ∧
      (traceOf env).filter Event.isUpdate = []) ∧
    (∀ (env : Env RErr) ids1 ids2 ops rtr b e,
      env.heads1 = .ok ids1 → ids1.length ≠ 1 → env.lockResult = .ok () →
      env.heads2 = .ok ids2 → 2 ≤ ids2.length →
      readOps env.store ids2 = (.ok ops, rtr) →
      heads_ok env.store ops = .ok [b] →
      env.updateResult (ancestorIds ops [b]) b.id = .error e →
      resultOf env = .error (.opHeadsStore e)) ∧
    (∀ (env : Env RErr) ids1 ids2 ops rtr filtered new_op e,
      env.heads1 = .ok ids1 → ids1.length ≠ 1 → env.lockResult = .ok () →
      env.heads2 = .ok ids2 → 2 ≤ ids2.length →
      readOps env.store ids2 = (.ok ops, rtr) →
      heads_ok env.store ops = .ok filtered → 2 ≤ filtered.length →
      env.resolver (filtered.mergeSort byEndTimestamp) = .ok new_op →
      env.updateResult (ancestorIds ops filtered ++ new_op.parent_ids)
        new_op.id = .error e →
      resultOf env = .error (.opHeadsStore e)) := by
  refine ⟨?_, ?_, ?_, ?_, ?_, ?_, ?_, ?_⟩
  · intro env e h1
    constructor <;> simp [resultOf, traceOf, resolve_op_heads, h1]
  · intro env ids1 e h1 hn hl
    have h := resolve_slow env ids1 h1 hn
    have hs : resolveSlowPath env = (.error (.opHeadsStore e), [.lockStore]) := by
      unfold resolveSlowPath
      simp only [hl]
    constructor <;> simp [resultOf, traceOf, h, hs]
  · intro env ids1 e h1 hn hl h2
    have h := resolve_slow env ids1 h1 hn
    have hs : resolveSlowPath env =
        (.error (.opHeadsStore e), [.lockStore, .getOpHeads]) := by
      unfold resolveSlowPath
      simp only [hl, h2]
    constructor <;> simp [resultOf, traceOf, h, hs]
  · intro env ids1 ids2 e rtr h1 hn hl h2 hlen hread
    have h := resolve_slow env ids1 h1 hn
    obtain ⟨pre, hpre⟩ := readOps_snd_reads env.store ids2
    have hrtr : rtr = pre.map Event.readOperation := by
      rw [hread] at hpre
      exact hpre
    rcases ids2 with _ | ⟨x, _ | ⟨y, t⟩⟩
    · simp at hlen
    · simp at hlen
    · have hs : resolveSlowPath env =
          (.error (.opStore e), [.lockStore, .getOpHeads] ++ rtr) := by
        unfold resolveSlowPath
        simp only [hl, h2, hread]
      refine ⟨?_, ?_, ?_⟩ <;>
        simp [resultOf, traceOf, h, hs, hrtr, List.filter_append,
          filter_isResolverCall_reads, filter_isUpdate_reads,
          Event.isResolverCall, Event.isUpdate]
  · intro env ids1 ids2 ops rtr e h1 hn hl h2 hlen hread hfilt
    have h := resolve_slow env ids1 h1 hn
    obtain ⟨hmap, htrr⟩ := readOps_ok hread
    rcases ids2 with _ | ⟨x, _ | ⟨y, t⟩⟩
    · simp at hlen
    · simp at hlen
    · have hs : resolveSlowPath env =
          (.error (.opStore e),
            [.lockStore, .getOpHeads] ++ rtr ++ [.ancestorFilter ops]) := by
        unfold resolveSlowPath
        simp only [hl, h2, hread, hfilt]
      refine ⟨?_, ?_, ?_⟩ <;>
        simp [resultOf, traceOf, h, hs, htrr, List.filter_append,
          filter_isResolverCall_reads, filter_isUpdate_reads,
          Event.isResolverCall, Event.isUpdate]
  · intro env ids1 ids2 ops rtr filtered e h1 hn hl h2 hlen hread hfilt
      hlen2 hres
    have h := resolve_slow env ids1 h1 hn
    obtain ⟨hmap, htrr⟩ := readOps_ok hread
    rcases ids2 with _ | ⟨x, _ | ⟨y, t⟩⟩
    · simp at hlen
    · simp at hlen
    · rcases filtered with _ | ⟨f1, _ | ⟨f2, ft⟩⟩
      · simp at hlen2
      · simp at hlen2
      · have hs : resolveSlowPath env =
            (.error (.resolver e),
              [.lockStore, .getOpHeads] ++ rtr
                ++ [.ancestorFilter ops,
                    .resolverCall
                      ((f1 :: f2 :: ft).mergeSort byEndTimestamp)]) := by
          unfold resolveSlowPath
          simp only [hl, h2, hread, hfilt, hres]
        refine ⟨?_, ?_⟩ <;>
          simp [resultOf, traceOf, h, hs, htrr, List.filter_append,
            filter_isUpdate_reads, Event.isUpdate]
  · intro env ids1 ids2 ops rtr b e h1 hn hl h2 hlen hread hfilt hupd
    have h := resolve_slow env ids1 h1 hn
    rcases ids2 with _ | ⟨x, _ | ⟨y, t⟩⟩
    · simp at hlen
    · simp at hlen
    · have hs : (resolveSlowPath env).1 = .error (.opHeadsStore e) := by
        unfold resolveSlowPath
        simp only [hl, h2, hread, hfilt, hupd]
      simp [resultOf, h, hs]
  · intro env ids1 ids2 ops rtr filtered new_op e h1 hn hl h2 hlen hread
      hfilt hlen2 hres hupd
    have h := resolve_slow env ids1 h1 hn
    rcases ids2 with _ | ⟨x, _ | ⟨y, t⟩⟩
    · simp at hlen
    · simp at hlen
    · rcases filtered with _ | ⟨f1, _ | ⟨f2, ft⟩⟩
      · simp at hlen2
      · simp at hlen2
      · have hs : (resolveSlowPath env).1 = .error (.opHeadsStore e) := by
          unfold resolveSlowPath
          simp only [hl, h2, hread, hfilt, hres, hupd]
        simp [resultOf, h, hs]

/-- Witness for C8: a head operation missing from the store aborts the
slow path before any resolver call or update; a failing resolver aborts
before any update. -/
theorem C8_witness :
    resultOf { wEnv with heads2 := .ok [1, 7] }
      = .error (.opStore .objectNotFound) ∧
    (traceOf { wEnv with heads2 := .ok [1, 7] }).filter
      Event.isResolverCall = [] ∧
    (traceOf { wEnv with heads2 := .ok [1, 7] }).filter Event.isUpdate = [] ∧
    resultOf { wEnv with heads1 := .ok [1, 3], heads2 := .ok [1, 3], resolver := fun _ => .error () } = .error (.resolver ()) ∧
    (traceOf { wEnv with heads1 := .ok [1, 3], heads2 := .ok [1, 3], resolver := fun _ => .error () }).filter Event.isUpdate = [] := by
  obtain ⟨-, -, -, hd, -, hf, -, -⟩ := @C8_error_propagation Unit
  obtain ⟨r1, r2, r3⟩ := hd { wEnv with heads2 := .ok [1, 7] } [1, 2] [1, 7]
    .objectNotFound [.readOperation 1, .readOperation 7]
    rfl (by decide) rfl rfl (by decide) rfl
  obtain ⟨r4, r5⟩ := hf { wEnv with heads1 := .ok [1, 3], heads2 := .ok [1, 3], resolver := fun _ => .error () }
    [1, 3] [1, 3] [wA, wC] [.readOperation 1, .readOperation 3] [wA, wC] ()
    rfl (by decide) rfl rfl (by decide) rfl rfl (by decide) rfl
  exact ⟨r1, r2, r3, r4, r5⟩

/-- Read events contribute no `updateOpHeads` count. -/
theorem countP_isUpdate_reads (ids : List OperationId) :
    (ids.map Event.readOperation).countP Event.isUpdate = 0 := by
  rw [List.countP_eq_length_filter, filter_isUpdate_reads]
  rfl

/-- Every operation of a successful head-load was read from the store. -/
theorem readOps_mem {store : List Operation} :
    ∀ {ids : List OperationId} {ops : List Operation} {tr : List Event},
      readOps store ids = (.ok ops, tr) →
      ∀ op ∈ ops, readOp store op.id = .ok op := by
  intro ids
  induction ids with
  | nil =>
    intro ops tr h
    unfold readOps at h
    simp only [Prod.mk.injEq] at h
    obtain ⟨h1, -⟩ := h
    injection h1 with h1
    subst h1
    intro op hop
    cases hop
  | cons id rest ih =>
    intro ops tr h
    unfold readOps at h
    rcases hr : readOp store id with e | op <;> rw [hr] at h
    · simp only [Prod.mk.injEq] at h
      cases h.1
    · rcases hrest : readOps store rest with ⟨r, tr'⟩
      rw [hrest] at h
      simp only [Prod.mk.injEq] at h
      obtain ⟨h1, -⟩ := h
      rcases r with e | ops' <;> simp only [Except.map] at h1
      · cases h1
      · injection h1 with h1
        subst h1
        intro o ho
        cases ho with
        | head => rw [readOp_ok_id hr]; exact hr
        | tail b ho => exact ih hrest o ho

/-- The ancestor filter returns a subset of its input. -/
theorem heads_ok_subset {store start H : List Operation}
    (h : heads_ok store start = .ok H) : ∀ op ∈ H, op ∈ start := by
  unfold heads_ok at h
  rcases hr : reachRounds store
      (closureFuel store ((start.flatMap (fun op => op.parent_ids)).dedup))
      ((start.flatMap (fun op => op.parent_ids)).dedup) with e | anc <;>
    rw [hr] at h
  · cases h
  · injection h with h
    subst h
    intro op hop
    exact (List.mem_filter.mp hop).1

/-- `countP` and `filter` see a block of read events as nothing but
reads. -/
theorem countP_comp_isUpdate_read (pre : List OperationId) :
    List.countP (Event.isUpdate ∘ Event.readOperation) pre = 0 := by
  induction pre with
  | nil => rfl
  | cons a l ih => simp [List.countP_cons, ih, Event.isUpdate, Function.comp]

/-- No read event is a write event, in composed form. -/
theorem filter_comp_isWrite_read (pre : List OperationId) :
    List.filter (Event.isWrite ∘ Event.readOperation) pre = [] := by
  induction pre with
  | nil => rfl
  | cons a l ih => simp [List.filter_cons, ih, Event.isWrite, Function.comp]

/-- Structural frame facts of the slow path, over every environment: at
most one `update_op_heads` call, never an operation-store write, and
every returned operation is either read from the store or returned by a
traced resolver call. -/
theorem slowPath_frame {RErr : Type} (env : Env RErr) :
    (resolveSlowPath env).2.countP Event.isUpdate ≤ 1 ∧
    (resolveSlowPath env).2.filter Event.isWrite = [] ∧
    (∀ op, (resolveSlowPath env).1 = .ok op →
      readOp env.store op.id = .ok op ∨
      ∃ ops', Event.resolverCall ops' ∈ (resolveSlowPath env).2 ∧
        env.resolver ops' = .ok op) := by
  have hcu : ∀ pre : List OperationId,
      List.countP Event.isUpdate (pre.map Event.readOperation) = 0 := by
    intro pre
    rw [List.countP_map]
    exact countP_comp_isUpdate_read pre
  have hfw : ∀ pre : List OperationId,
      List.filter Event.isWrite (pre.map Event.readOperation) = [] := by
    intro pre
    rw [List.filter_map, filter_comp_isWrite_read]
    rfl
  unfold resolveSlowPath
  rcases hl : env.lockResult with e | u
  all_goals try simp only [hl]
  · refine ⟨by simp [List.countP_cons, List.countP_nil, Event.isUpdate],
      by simp [List.filter_cons, Event.isWrite], ?_⟩
    intro op h
    simp at h
  rcases h2 : env.heads2 with e | ids2
  all_goals try simp only [h2]
  · refine ⟨by simp [List.countP_cons, List.countP_nil, Event.isUpdate],
      by simp [List.filter_cons, Event.isWrite], ?_⟩
    intro op h
    simp at h
  rcases ids2 with _ | ⟨x, _ | ⟨y, t⟩⟩
  · refine ⟨by simp [List.countP_cons, List.countP_nil, Event.isUpdate],
      by simp [List.filter_cons, Event.isWrite], ?_⟩
    intro op h
    simp at h
  · rcases hr : readOp env.store x with e | op0
    all_goals try simp only [hr]
    · refine ⟨by simp [List.countP_cons, List.countP_nil, Event.isUpdate],
        by simp [List.filter_cons, Event.isWrite], ?_⟩
      intro op h
      simp at h
    · refine ⟨by simp [List.countP_cons, List.countP_nil, Event.isUpdate],
        by simp [List.filter_cons, Event.isWrite], ?_⟩
      intro op h
      simp only [Except.ok.injEq] at h
      subst h
      left
      rw [readOp_ok_id hr]
      exact hr
  · obtain ⟨pre, hpre⟩ := readOps_snd_reads env.store (x :: y :: t)
    rcases hread : readOps env.store (x :: y :: t) with ⟨r, rtr⟩
    rw [hread] at hpre
    simp only at hpre
    subst hpre
    simp only [hread]
    rcases r with e | ops
    · refine ⟨?_, ?_, ?_⟩
      · simp [List.countP_cons, hcu, Event.isUpdate]
      · simp [List.filter_cons, hfw, Event.isWrite]
      · intro op h
        simp at h
    rcases hfilt : heads_ok env.store ops with e | filtered
    · simp only [hfilt]
      refine ⟨?_, ?_, ?_⟩
      · simp [List.countP_cons, List.countP_append, hcu, Event.isUpdate]
      · simp [List.filter_cons, List.filter_append, hfw, Event.isWrite]
      · intro op h
        simp at h
    rcases filtered with _ | ⟨f1, _ | ⟨f2, ft⟩⟩
    all_goals try simp only [hfilt]
    · rcases hres : env.resolver ([].mergeSort byEndTimestamp) with e | new_op
      all_goals try simp only [hres]
      · refine ⟨?_, ?_, ?_⟩
        · simp [List.countP_cons, List.countP_append, hcu, Event.isUpdate]
        · simp [List.filter_cons, List.filter_append, hfw, Event.isWrite]
        · intro op h
          simp at h
      · refine ⟨?_, ?_, ?_⟩
        · simp [List.countP_cons, List.countP_append, hcu, Event.isUpdate]
        · simp [List.filter_cons, List.filter_append, hfw, Event.isWrite]
        · intro op h
          rcases hupd : env.updateResult
              (ancestorIds ops [] ++ new_op.parent_ids) new_op.id with e | u'
          all_goals rw [hupd] at h
          · simp at h
          · simp only [Except.ok.injEq] at h
            subst h
            right
            exact ⟨[].mergeSort byEndTimestamp, by simp, hres⟩
    · refine ⟨?_, ?_, ?_⟩
      · simp [List.countP_cons, List.countP_append, hcu, Event.isUpdate]
      · simp [List.filter_cons, List.filter_append, hfw, Event.isWrite]
      · intro op h
        rcases hupd : env.updateResult (ancestorIds ops [f1]) f1.id
            with e | u'
        all_goals rw [hupd] at h
        · simp at h
        · simp only [Except.ok.injEq] at h
          subst h
          left
          have hf1 : f1 ∈ ops := heads_ok_subset hfilt f1 (by simp)
          exact readOps_mem hread f1 hf1
    · rcases hres : env.resolver ((f1 :: f2 :: ft).mergeSort byEndTimestamp)
          with e | new_op
      all_goals try simp only [hres]
      · refine ⟨?_, ?_, ?_⟩
        · simp [List.countP_cons, List.countP_append, hcu, Event.isUpdate]
        · simp [List.filter_cons, List.filter_append, hfw, Event.isWrite]
        · intro op h
          simp at h
      · refine ⟨?_, ?_, ?_⟩
        · simp [List.countP_cons, List.countP_append, hcu, Event.isUpdate]
        · simp [List.filter_cons, List.filter_append, hfw, Event.isWrite]
        · intro op h
          rcases hupd : env.updateResult
              (ancestorIds ops (f1 :: f2 :: ft) ++ new_op.parent_ids)
              new_op.id with e | u'
          all_goals rw [hupd] at h
          · simp at h
          · simp only [Except.ok.injEq] at h
            subst h
            right
            exact ⟨(f1 :: f2 :: ft).mergeSort byEndTimestamp, by simp, hres⟩

/-- C9: `update_op_heads` is called at most once per invocation, and in
the single-filtered-head branch the `old_ids` argument (the original
post-lock head ids minus the surviving head's id) never contains the
`new_id` argument, so the call meets `update_op_heads`' documented
precondition that the old op heads must not contain the new one. -/
theorem C9_update_at_most_once {RErr : Type} :
    (∀ env : Env RErr, (traceOf env).countP Event.isUpdate ≤ 1) ∧
    (∀ (env : Env RErr) ids1 ids2 ops rtr (b : Operation),
      env.heads1 = .ok ids1 → ids1.length ≠ 1 → env.lockResult = .ok () →
      env.heads2 = .ok ids2 → 2 ≤ ids2.length →
      readOps env.store ids2 = (.ok ops, rtr) →
      heads_ok env.store ops = .ok [b] →
      (traceOf env).filter Event.isUpdate =
        [.updateOpHeads (ids2.dedup.filter (fun i => i != b.id)) b.id] ∧
      b.id ∉ ids2.dedup.filter (fun i => i != b.id)) := by
  constructor
  · intro env
    rcases hh : env.heads1 with e | ids1
    · simp [traceOf, resolve_op_heads, hh, List.countP_cons, Event.isUpdate]
    · have hslow : ∀ hn : ids1.length ≠ 1,
          (traceOf env).countP Event.isUpdate ≤ 1 := by
        intro hn
        have h := resolve_slow env ids1 hh hn
        have hb := (slowPath_frame env).1
        simp only [traceOf, h, List.countP_cons, Event.isUpdate]
        simpa using hb
      rcases ids1 with _ | ⟨a, _ | ⟨c, t1⟩⟩
      · exact hslow (by simp)
      · have h := resolve_fast env a hh
        simp [traceOf, h, List.countP_cons, Event.isUpdate]
      · exact hslow (by simp)
  · intro env ids1 ids2 ops rtr b h1 hn hl h2 hlen hread hfilt
    have h := resolve_slow env ids1 h1 hn
    obtain ⟨hmap, htrr⟩ := readOps_ok hread
    have hanc : ancestorIds ops [b] =
        ids2.dedup.filter (fun i => i != b.id) := by
      unfold ancestorIds
      rw [hmap]
      refine List.filter_congr ?_
      intro x _
      rcases eq_or_ne x b.id with rfl | hne
      · simp
      · simp [hne]
    rcases ids2 with _ | ⟨x, _ | ⟨y, t⟩⟩
    · simp at hlen
    · simp at hlen
    · have hstr : (resolveSlowPath env).2 =
          [.lockStore, .getOpHeads] ++ rtr
            ++ [.ancestorFilter ops,
                .updateOpHeads (ancestorIds ops [b]) b.id] := by
        unfold resolveSlowPath
        simp only [hl, h2, hread, hfilt]
      constructor
      · simp [traceOf, h, hstr, htrr, List.filter_append,
          filter_isUpdate_reads, hanc, Event.isUpdate]
      · intro hmem
        have := (List.mem_filter.mp hmem).2
        simp at this

/-- Witness for C9: in the cleanup run over heads `{wA, wB}` the single
update retires `[1]` and installs `2`, and `2 ∉ [1]`. -/
theorem C9_witness :
    (traceOf wEnv).countP Event.isUpdate ≤ 1 ∧
    (traceOf wEnv).filter Event.isUpdate = [.updateOpHeads [1] 2] ∧
    (2 : OperationId) ∉ ([1] : List OperationId) := by
  obtain ⟨hcount, hbranch⟩ := @C9_update_at_most_once Unit
  obtain ⟨hu, hnm⟩ := hbranch wEnv [1, 2] [1, 2] [wA, wB]
    [.readOperation 1, .readOperation 2] wB
    rfl (by decide) rfl rfl (by decide) rfl rfl
  refine ⟨hcount wEnv, ?_, ?_⟩
  · rw [hu]
    rfl
  · have h2 : (2 : OperationId) ∈ ([1, 2] : List OperationId).dedup.filter
        (fun i => i != wB.id) → False := hnm
    intro hmem
    simp at hmem

/-- C10: on every path, the orchestrator itself never writes an
operation or view record (no write event is ever traced); its only
mutation is at most one `update_op_heads` call; and every operation it
returns is either a record read from the operation store or the verbatim
output of a traced resolver call, never an operation fabricated by the
orchestrator. -/
theorem C10_frame {RErr : Type} (env : Env RErr) :
    (traceOf env).filter Event.isWrite = [] ∧
    (traceOf env).countP Event.isUpdate ≤ 1 ∧
    (∀ op, resultOf env = .ok op →
      readOp env.store op.id = .ok op ∨
      ∃ ops', Event.resolverCall ops' ∈ traceOf env ∧
        env.resolver ops' = .ok op) := by
  rcases hh : env.heads1 with e | ids1
  · refine ⟨?_, ?_, ?_⟩
    · simp [traceOf, resolve_op_heads, hh, List.filter_cons, Event.isWrite]
    · simp [traceOf, resolve_op_heads, hh, List.countP_cons, Event.isUpdate]
    · intro op hres
      simp [resultOf, resolve_op_heads, hh] at hres
  · have hslow : ids1.length ≠ 1 →
        (traceOf env).filter Event.isWrite = [] ∧
        (traceOf env).countP Event.isUpdate ≤ 1 ∧
        (∀ op, resultOf env = .ok op →
          readOp env.store op.id = .ok op ∨
          ∃ ops', Event.resolverCall ops' ∈ traceOf env ∧
            env.resolver ops' = .ok op) := by
      intro hn
      have h := resolve_slow env ids1 hh hn
      obtain ⟨hc, hw, hres⟩ := slowPath_frame env
      refine ⟨?_, ?_, ?_⟩
      · simp only [traceOf, h, List.filter_cons, Event.isWrite]
        simpa using hw
      · simp only [traceOf, h, List.countP_cons, Event.isUpdate]
        simpa using hc
      · intro op hok
        have : (resolveSlowPath env).1 = .ok op := by
          simpa [resultOf, h] using hok
        rcases hres op this with hl | ⟨ops', hmem, hr⟩
        · exact Or.inl hl
        · exact Or.inr ⟨ops', by simp [traceOf, h, hmem], hr⟩
    rcases ids1 with _ | ⟨a, _ | ⟨c, t1⟩⟩
    · exact hslow (by simp)
    · have h := resolve_fast env a hh
      refine ⟨?_, ?_, ?_⟩
      · simp [traceOf, h, List.filter_cons, Event.isWrite]
      · simp [traceOf, h, List.countP_cons, Event.isUpdate]
      · intro op hok
        rcases hr : readOp env.store a with e | op0 <;>
          simp only [resultOf, h, hr] at hok
        · cases hok
        · injection hok with hok
          subst hok
          left
          rw [readOp_ok_id hr]
          exact hr
    · exact hslow (by simp)

/-- Witness for C10: the merge run writes nothing and returns exactly
the resolver's output `wM`. -/
theorem C10_witness :
    (traceOf { wEnv with heads1 := .ok [1, 3], heads2 := .ok [1, 3] }).filter
      Event.isWrite = [] ∧
    (readOp wStore wM.id = .ok wM ∨
      ∃ ops', Event.resolverCall ops' ∈
          traceOf { wEnv with heads1 := .ok [1, 3], heads2 := .ok [1, 3] } ∧
        ({ wEnv with heads1 := .ok [1, 3], heads2 := .ok [1, 3] } :
          Env Unit).resolver ops' = .ok wM) := by
  obtain ⟨hw, -, hres⟩ :=
    C10_frame { wEnv with heads1 := .ok [1, 3], heads2 := .ok [1, 3] }
  exact ⟨hw, hres wM (by rfl)⟩

/-- A successful read determines the parent lookup. -/
theorem readOp_parentIdsOf {store : List Operation} {i : OperationId}
    {op : Operation} (h : readOp store i = .ok op) :
    parentIdsOf store i = op.parent_ids := by
  unfold readOp at h
  unfold parentIdsOf
  rcases hf : store.find? (fun o => o.id == i) with _ | o <;> rw [hf] at h
  · cases h
  · injection h with h
    subst h
    rw [hf]

/-- A successfully read operation is one of the store's records. -/
theorem readOp_mem_store {store : List Operation} {i : OperationId}
    {op : Operation} (h : readOp store i = .ok op) : op ∈ store := by
  unfold readOp at h
  rcases hf : store.find? (fun o => o.id == i) with _ | o <;> rw [hf] at h
  · cases h
  · injection h with h
    subst h
    exact List.mem_of_find?_eq_some hf

/-- A duplicate-free list included in another is no longer than it. -/
theorem nodup_subset_length {l m : List OperationId} (hn : l.Nodup)
    (h : l ⊆ m) : l.length ≤ m.length := by
  have h1 : l.toFinset.card = l.length := List.toFinset_card_of_nodup hn
  have h2 : l.toFinset ⊆ m.toFinset := by
    intro a ha
    rw [List.mem_toFinset] at *
    exact h ha
  have h3 := Finset.card_le_card h2
  have h4 := List.card_toFinset m
  have h5 := (m.dedup_sublist).length_le
  omega

/-- Membership in a successful `expandParents` result: exactly the direct
parents of the queried ids. -/
theorem expandParents_ok_mem {store : List Operation} :
    ∀ {ids ps : List OperationId}, expandParents store ids = .ok ps →
      ∀ a, (a ∈ ps ↔ ∃ i ∈ ids, stepParent store i a) := by
  intro ids
  induction ids with
  | nil =>
    intro ps h a
    unfold expandParents at h
    injection h with h
    subst h
    simp
  | cons i rest ih =>
    intro ps h a
    unfold expandParents at h
    rcases hr : readOp store i with e | op <;> rw [hr] at h
    · cases h
    · rcases hrest : expandParents store rest with e | ps' <;>
        rw [hrest] at h
      · cases h
      · injection h with h
        subst h
        have hpar : parentIdsOf store i = op.parent_ids :=
          readOp_parentIdsOf hr
        simp only [List.mem_append, ih hrest a, stepParent]
        constructor
        · rintro (hop | ⟨j, hj, hstep⟩)
          · exact ⟨i, by simp, by rw [hpar]; exact hop⟩
          · exact ⟨j, by simp [hj], hstep⟩
        · rintro ⟨j, hj, hstep⟩
          rcases List.mem_cons.mp hj with rfl | hj'
          · left
            rw [hpar] at hstep
            exact hstep
          · right
            exact ⟨j, hj', hstep⟩

/-- A successful `expandParents` read every queried id. -/
theorem expandParents_ok_resolvable {store : List Operation} :
    ∀ {ids ps : List OperationId}, expandParents store ids = .ok ps →
      ∀ i ∈ ids, ∃ op, readOp store i = .ok op := by
  intro ids
  induction ids with
  | nil =>
    intro ps h i hi
    cases hi
  | cons j rest ih =>
    intro ps h i hi
    unfold expandParents at h
    rcases hr : readOp store j with e | op <;> rw [hr] at h
    · cases h
    · rcases hrest : expandParents store rest with e | ps' <;>
        rw [hrest] at h
      · cases h
      · rcases List.mem_cons.mp hi with rfl | hi'
        · exact ⟨op, hr⟩
        · exact ih hrest i hi'

/-- Membership in a successful frontier round. -/
theorem expandOnce_ok_mem {store : List Operation}
    {ids nxt : List OperationId} (h : expandOnce store ids = .ok nxt) :
    ∀ a, (a ∈ nxt ↔ a ∈ ids ∨ ∃ i ∈ ids, stepParent store i a) := by
  unfold expandOnce at h
  rcases hp : expandParents store ids with e | ps <;> rw [hp] at h <;>
    simp only [Except.map] at h
  · cases h
  · injection h with h
    subst h
    intro a
    simp only [List.mem_append, expandParents_ok_mem hp a]

/-- A successful frontier round read every id of its frontier. -/
theorem expandOnce_ok_resolvable {store : List Operation}
    {ids nxt : List OperationId} (h : expandOnce store ids = .ok nxt) :
    ∀ i ∈ ids, ∃ op, readOp store i = .ok op := by
  unfold expandOnce at h
  rcases hp : expandParents store ids with e | ps <;> rw [hp] at h <;>
    simp only [Except.map] at h
  · cases h
  · exact expandParents_ok_resolvable hp

/-- Everything the iterated traversal returns is reachable from the
initial frontier by zero or more parent steps. -/
theorem reachRounds_sound {store : List Operation} :
    ∀ {n : Nat} {ids out : List OperationId},
      reachRounds store n ids = .ok out →
      ∀ a ∈ out, a ∈ ids ∨ ∃ i ∈ ids, Relation.TransGen (stepParent store) i a := by
  intro n
  induction n with
  | zero =>
    intro ids out h a ha
    unfold reachRounds at h
    injection h with h
    subst h
    exact Or.inl ha
  | succ m ih =>
    intro ids out h a ha
    unfold reachRounds at h
    rcases he : expandOnce store ids with e | nxt <;> rw [he] at h
    · cases h
    · rcases ih h a ha with hmem | ⟨i, hi, htg⟩
      · rcases (expandOnce_ok_mem he a).mp (List.mem_dedup.mp hmem) with
          hmem' | ⟨i, hi, hstep⟩
        · exact Or.inl hmem'
        · exact Or.inr ⟨i, hi, Relation.TransGen.single hstep⟩
      · rcases (expandOnce_ok_mem he i).mp (List.mem_dedup.mp hi) with
          hmem' | ⟨j, hj, hstep⟩
        · exact Or.inr ⟨i, hmem', htg⟩
        · exact Or.inr ⟨j, hj, Relation.TransGen.head hstep htg⟩

/-- The iterated traversal keeps its initial frontier. -/
theorem reachRounds_mono {store : List Operation} :
    ∀ {n : Nat} {ids out : List OperationId},
      reachRounds store n ids = .ok out → ∀ a ∈ ids, a ∈ out := by
  intro n
  induction n with
  | zero =>
    intro ids out h a ha
    unfold reachRounds at h
    injection h with h
    subst h
    exact ha
  | succ m ih =>
    intro ids out h a ha
    unfold reachRounds at h
    rcases he : expandOnce store ids with e | nxt <;> rw [he] at h
    · cases h
    · refine ih h a ?_
      rw [List.mem_dedup]
      exact (expandOnce_ok_mem he a).mpr (Or.inl ha)

/-- Once the frontier is membership-equal to a closed set, further
rounds keep it there. -/
theorem reachRounds_stable {store : List Operation}
    {base : List OperationId} (hc : ClosedIds store base) :
    ∀ {n : Nat} {ids out : List OperationId},
      (∀ a, a ∈ ids ↔ a ∈ base) →
      reachRounds store n ids = .ok out →
      ∀ a, (a ∈ out ↔ a ∈ base) := by
  intro n
  induction n with
  | zero =>
    intro ids out heq h
    unfold reachRounds at h
    injection h with h
    subst h
    exact heq
  | succ m ih =>
    intro ids out heq h
    unfold reachRounds at h
    rcases he : expandOnce store ids with e | nxt <;> rw [he] at h
    · cases h
    · refine ih ?_ h
      intro a
      rw [List.mem_dedup, expandOnce_ok_mem he a]
      constructor
      · rintro (ha | ⟨i, hi, hstep⟩)
        · exact (heq a).mp ha
        · exact hc.2 i ((heq i).mp hi) a hstep
      · intro ha
        exact Or.inl ((heq a).mpr ha)

/-- With fuel exceeding the size of a universe that contains the frontier
and every stored parent id, a successful traversal result is closed: the
frontier can strictly grow at most `univ.length` times, so some round is
a fixpoint, which `reachRounds_stable` then preserves. -/
theorem reachRounds_closed {store : List Operation}
    {univ : List OperationId}
    (huniv : ∀ op ∈ store, ∀ b ∈ op.parent_ids, b ∈ univ) :
    ∀ {n : Nat} {ids out : List OperationId},
      ids.Nodup → ids ⊆ univ →
      univ.length + 1 ≤ n + ids.length →
      reachRounds store n ids = .ok out →
      ClosedIds store out := by
  intro n
  induction n with
  | zero =>
    intro ids out hnd hsub hlen h
    have := nodup_subset_length hnd hsub
    omega
  | succ m ih =>
    intro ids out hnd hsub hlen h
    unfold reachRounds at h
    rcases he : expandOnce store ids with e | nxt <;> rw [he] at h
    · cases h
    by_cases hfix : ∀ a ∈ nxt, a ∈ ids
    · have hres : ∀ a ∈ ids, ∃ op, readOp store a = .ok op :=
        expandOnce_ok_resolvable he
      have hcl : ClosedIds store ids := by
        refine ⟨hres, ?_⟩
        intro a ha b hb
        exact hfix b ((expandOnce_ok_mem he b).mpr (Or.inr ⟨a, ha, hb⟩))
      have hout : ∀ a, a ∈ out ↔ a ∈ ids := by
        refine reachRounds_stable hcl ?_ h
        intro a
        rw [List.mem_dedup, expandOnce_ok_mem he a]
        constructor
        · rintro (ha | ⟨i, hi, hstep⟩)
          · exact ha
          · exact hcl.2 i hi a hstep
        · exact fun ha => Or.inl ha
      refine ⟨?_, ?_⟩
      · intro a ha
        exact hres a ((hout a).mp ha)
      · intro a ha b hb
        exact (hout b).mpr (hcl.2 a ((hout a).mp ha) b hb)
    · push_neg at hfix
      obtain ⟨c, hcnxt, hcnot⟩ := hfix
      have hsub' : nxt.dedup ⊆ univ := by
        intro a ha
        rcases (expandOnce_ok_mem he a).mp (List.mem_dedup.mp ha) with
          ha' | ⟨i, hi, hstep⟩
        · exact hsub ha'
        · obtain ⟨op, hop⟩ := expandOnce_ok_resolvable he i hi
          have hpar := readOp_parentIdsOf hop
          refine huniv op (readOp_mem_store hop) a ?_
          rw [← hpar]
          exact hstep
      have hlen' : ids.length + 1 ≤ nxt.dedup.length := by
        have hids_sub : ids ⊆ nxt.dedup := by
          intro a ha
          rw [List.mem_dedup]
          exact (expandOnce_ok_mem he a).mpr (Or.inl ha)
        have hnd2 : (c :: ids).Nodup := by
          simp [hnd, hcnot]
        have hsub2 : (c :: ids) ⊆ nxt.dedup := by
          intro a ha
          rcases List.mem_cons.mp ha with rfl | ha'
          · rw [List.mem_dedup]
            exact hcnxt
          · exact hids_sub ha'
        have := nodup_subset_length hnd2 hsub2
        simpa using this
      refine ih (List.nodup_dedup nxt) hsub' ?_ h
      omega

/-- A closed id set absorbs parent walks starting inside it. -/
theorem closed_reach {store : List Operation} {anc : List OperationId}
    (hclosed : ClosedIds store anc) {i a : OperationId} (hbase : i ∈ anc)
    (hw : Relation.ReflTransGen (stepParent store) i a) : a ∈ anc := by
  induction hw with
  | refl => exact hbase
  | tail h1 h2 ih => exact hclosed.2 _ ih _ h2

/-- The filter's ancestor set holds exactly the transitive ancestors of
the input nodes. -/
theorem heads_ok_mem {store start H : List Operation}
    (h : heads_ok store start = .ok H) :
    ∀ x, x ∈ H ↔ x ∈ start ∧
      ¬ ∃ y ∈ start, isAncestorOfOp store x.id y := by
  unfold heads_ok at h
  rcases hr : reachRounds store
      (closureFuel store ((start.flatMap (fun op => op.parent_ids)).dedup))
      ((start.flatMap (fun op => op.parent_ids)).dedup) with e | anc <;>
    rw [hr] at h
  · cases h
  injection h with h
  subst h
  have hanc : ∀ a, a ∈ anc ↔ ∃ y ∈ start, isAncestorOfOp store a y := by
    intro a
    constructor
    · intro ha
      rcases reachRounds_sound hr a ha with hini | ⟨i, hi, htg⟩
      · rw [List.mem_dedup, List.mem_flatMap] at hini
        obtain ⟨y, hy, hpar⟩ := hini
        exact ⟨y, hy, a, hpar, Relation.ReflTransGen.refl⟩
      · rw [List.mem_dedup, List.mem_flatMap] at hi
        obtain ⟨y, hy, hpar⟩ := hi
        exact ⟨y, hy, i, hpar, htg.to_reflTransGen⟩
    · rintro ⟨y, hy, i, hpar, hrtg⟩
      have hini : i ∈ (start.flatMap (fun op => op.parent_ids)).dedup := by
        rw [List.mem_dedup, List.mem_flatMap]
        exact ⟨y, hy, hpar⟩
      have hbase : i ∈ anc := reachRounds_mono hr i hini
      have hclosed : ClosedIds store anc := by
        have huniv : ∀ op ∈ store, ∀ b ∈ op.parent_ids,
            b ∈ (start.flatMap (fun op => op.parent_ids)).dedup
              ++ store.flatMap (fun op => op.parent_ids) := by
          intro op hop b hb
          rw [List.mem_append, List.mem_flatMap]
          exact Or.inr ⟨op, hop, hb⟩
        refine reachRounds_closed huniv (List.nodup_dedup _) ?_ ?_ hr
        · intro a ha
          rw [List.mem_append]
          exact Or.inl ha
        · rw [List.length_append]
          unfold closureFuel
          omega
      exact closed_reach hclosed hbase hrtg
  intro x
  rw [List.mem_filter]
  constructor
  · rintro ⟨hx, hfilt⟩
    refine ⟨hx, ?_⟩
    intro hex
    rw [← hanc x.id] at hex
    simp [hex] at hfilt
  · rintro ⟨hx, hnot⟩
    refine ⟨hx, ?_⟩
    rw [← hanc x.id] at hnot
    simpa using hnot

/-- C5: the DAG ancestor filter returns the subset of the input whose
members are not (transitive) ancestors of any node of the input set —
over every finite store and input.  Under the well-formedness of real
content-addressed stores (each input node stored under its id, no cyclic
ancestry) "any node" coincides with the claim's "any other node".  In
particular filtering the chain `{wA, wB}` (with `wA` the parent of `wB`)
returns `[wB]` only, and filtering the diamond `{wA, wC}` (no edge
between them) returns both. -/
theorem C5_dag_filter :
    (∀ (store start H : List Operation), heads_ok store start = .ok H →
      ∀ x, (x ∈ H ↔ x ∈ start ∧
        ¬ ∃ y ∈ start, isAncestorOfOp store x.id y)) ∧
    (∀ (store start H : List Operation), heads_ok store start = .ok H →
      (∀ op ∈ start, readOp store op.id = .ok op) →
      (∀ i, ¬ isAncestor store i i) →
      ∀ x, (x ∈ H ↔ x ∈ start ∧
        ¬ ∃ y ∈ start, y ≠ x ∧ isAncestorOfOp store x.id y)) ∧
    heads_ok wStore [wA, wB] = .ok [wB] ∧
    heads_ok wStore [wA, wC] = .ok [wA, wC] := by
  have hmain : ∀ (store start H : List Operation),
      heads_ok store start = .ok H →
      ∀ x, (x ∈ H ↔ x ∈ start ∧
        ¬ ∃ y ∈ start, isAncestorOfOp store x.id y) :=
    fun store start H h => heads_ok_mem h
  refine ⟨hmain, ?_, by rfl, by rfl⟩
  intro store start H h hread hacyc x
  rw [hmain store start H h x]
  constructor
  · rintro ⟨hx, hnot⟩
    refine ⟨hx, ?_⟩
    rintro ⟨y, hy, -, hanc⟩
    exact hnot ⟨y, hy, hanc⟩
  · rintro ⟨hx, hnot⟩
    refine ⟨hx, ?_⟩
    rintro ⟨y, hy, hanc⟩
    rcases eq_or_ne y x with rfl | hne
    · obtain ⟨i, hi, hrtg⟩ := hanc
      have hstep : stepParent store y.id i := by
        unfold stepParent
        rw [readOp_parentIdsOf (hread y hy)]
        exact hi
      exact hacyc y.id (Relation.TransGen.head'_iff.mpr ⟨i, hstep, hrtg⟩)
    · exact hnot ⟨y, hy, hne, hanc⟩

/-- Witness for C5: the chain instance, read off the general theorem. -/
theorem C5_witness :
    wA ∈ ([wB] : List Operation) ↔ wA ∈ [wA, wB] ∧
      ¬ ∃ y ∈ [wA, wB], isAncestorOfOp wStore wA.id y :=
  C5_dag_filter.1 wStore [wA, wB] [wB] rfl wA

/-- For a node stored under its id, node-level ancestry coincides with
id-level ancestry. -/
theorem isAncestorOfOp_iff {store : List Operation} {y : Operation}
    (hy : readOp store y.id = .ok y) (a : OperationId) :
    isAncestorOfOp store a y ↔ isAncestor store a y.id := by
  unfold isAncestorOfOp isAncestor
  rw [Relation.TransGen.head'_iff]
  constructor
  · rintro ⟨i, hi, hrtg⟩
    refine ⟨i, ?_, hrtg⟩
    unfold stepParent
    rw [readOp_parentIdsOf hy]
    exact hi
  · rintro ⟨i, hstep, hrtg⟩
    refine ⟨i, ?_, hrtg⟩
    unfold stepParent at hstep
    rw [readOp_parentIdsOf hy] at hstep
    exact hstep

/-- In an acyclic store every nonempty node set has a maximal element:
one that is an ancestor of no member. -/
theorem exists_maximal_op {store : List Operation}
    (hacyc : ∀ i, ¬ isAncestor store i i) :
    ∀ l : List Operation, l ≠ [] →
      ∃ m ∈ l, ∀ y ∈ l, ¬ isAncestor store m.id y.id := by
  intro l
  induction l with
  | nil => intro h; cases h rfl
  | cons x rest ih =>
    intro _
    by_cases hrest : rest = []
    · subst hrest
      refine ⟨x, by simp, ?_⟩
      intro y hy
      have hxy := List.mem_singleton.mp hy
      subst hxy
      exact hacyc _
    · obtain ⟨m, hm, hmax⟩ := ih hrest
      by_cases hmx : isAncestor store m.id x.id
      · refine ⟨x, by simp, ?_⟩
        intro y hy
        rcases List.mem_cons.mp hy with rfl | hy'
        · exact hacyc _
        · intro hxy
          exact hmax y hy' (Relation.TransGen.trans hxy hmx)
      · refine ⟨m, by simp [hm], ?_⟩
        intro y hy
        rcases List.mem_cons.mp hy with rfl | hy'
        · exact hmx
        · exact hmax y hy'

/-- Over an acyclic store, the ancestor filter of a nonempty set of
stored nodes is nonempty: a maximal element survives. -/
theorem heads_ok_ne_nil {store ops filtered : List Operation}
    (hfilt : heads_ok store ops = .ok filtered)
    (hread : ∀ op ∈ ops, readOp store op.id = .ok op)
    (hacyc : ∀ i, ¬ isAncestor store i i) (hne : ops ≠ []) :
    filtered ≠ [] := by
  obtain ⟨m, hm, hmax⟩ := exists_maximal_op hacyc ops hne
  have hmem : m ∈ filtered := by
    rw [heads_ok_mem hfilt m]
    refine ⟨hm, ?_⟩
    rintro ⟨y, hy, hanc⟩
    rw [isAncestorOfOp_iff (hread y hy)] at hanc
    exact hmax y hy hanc
  intro h
  rw [h] at hmem
  cases hmem

/-- Read events are not resolver calls, in composed form. -/
theorem filter_comp_isResolverCall_read (pre : List OperationId) :
    List.filter (Event.isResolverCall ∘ Event.readOperation) pre = [] := by
  induction pre with
  | nil => rfl
  | cons a l ih =>
    simp [List.filter_cons, ih, Event.isResolverCall, Function.comp]

/-- Resolver-call characterization of the slow path: either no resolver
call is traced, or the merge branch was reached — the post-lock heads
were ≥ 2, they all loaded, the ancestor filter succeeded with a head
count other than one — and exactly one resolver call is traced, carrying
the filtered heads sorted by end timestamp. -/
theorem slowPath_resolver {RErr : Type} (env : Env RErr) :
    (resolveSlowPath env).2.filter Event.isResolverCall = [] ∨
    ∃ ids2 ops rtr filtered,
      env.lockResult = .ok () ∧ env.heads2 = .ok ids2 ∧ 2 ≤ ids2.length ∧
      readOps env.store ids2 = (.ok ops, rtr) ∧
      heads_ok env.store ops = .ok filtered ∧ filtered.length ≠ 1 ∧
      (resolveSlowPath env).2.filter Event.isResolverCall =
        [.resolverCall (filtered.mergeSort byEndTimestamp)] := by
  have hfr : ∀ pre : List OperationId,
      List.filter Event.isResolverCall (pre.map Event.readOperation) = [] := by
    intro pre
    rw [List.filter_map, filter_comp_isResolverCall_read]
    rfl
  unfold resolveSlowPath
  rcases hl : env.lockResult with e | u
  all_goals try simp only [hl]
  · left
    simp [List.filter_cons, Event.isResolverCall]
  rcases h2 : env.heads2 with e | ids2
  all_goals try simp only [h2]
  · left
    simp [List.filter_cons, Event.isResolverCall]
  rcases ids2 with _ | ⟨x, _ | ⟨y, t⟩⟩
  · left
    simp [List.filter_cons, Event.isResolverCall]
  · rcases hr : readOp env.store x with e | op0
    all_goals try simp only [hr]
    · left
      simp [List.filter_cons, Event.isResolverCall]
    · left
      simp [List.filter_cons, Event.isResolverCall]
  · obtain ⟨pre, hpre⟩ := readOps_snd_reads env.store (x :: y :: t)
    rcases hread : readOps env.store (x :: y :: t) with ⟨r, rtr⟩
    rw [hread] at hpre
    simp only at hpre
    subst hpre
    simp only [hread]
    rcases r with e | ops
    · left
      simp [List.filter_cons, hfr, Event.isResolverCall]
    rcases hfilt : heads_ok env.store ops with e | filtered
    · simp only [hfilt]
      left
      simp [List.filter_cons, List.filter_append, hfr, Event.isResolverCall]
    rcases filtered with _ | ⟨f1, _ | ⟨f2, ft⟩⟩
    all_goals try simp only [hfilt]
    · right
      refine ⟨x :: y :: t, ops, List.map Event.readOperation pre, [],
        trivial, rfl, by simp, hread, hfilt, by simp, ?_⟩
      rcases hres : env.resolver ([].mergeSort byEndTimestamp) with e | new_op
      all_goals simp only [hres]
      · simp [List.filter_cons, List.filter_append, hfr, Event.isResolverCall]
      · simp [List.filter_cons, List.filter_append, hfr, Event.isResolverCall,
          Event.isUpdate]
    · left
      simp [List.filter_cons, List.filter_append, hfr, Event.isResolverCall,
        Event.isUpdate]
    · right
      refine ⟨x :: y :: t, ops, List.map Event.readOperation pre,
        f1 :: f2 :: ft, trivial, rfl, by simp, hread, hfilt, by simp, ?_⟩
      rcases hres : env.resolver ((f1 :: f2 :: ft).mergeSort byEndTimestamp)
          with e | new_op
      all_goals simp only [hres]
      · simp [List.filter_cons, List.filter_append, hfr, Event.isResolverCall]
      · simp [List.filter_cons, List.filter_append, hfr, Event.isResolverCall,
          Event.isUpdate]

/-- C1: whenever the post-lock head set's ancestor-filtered subset holds
at least two operations, the resolver is invoked exactly once, on exactly
the filtered operations sorted ascending by `metadata.time.end.timestamp`
(a permutation of the filtered set, sorted by that key); and the resolver
is never invoked on any other path — any traced resolver call forces the
merge path, with (over an acyclic store, as content addressing
guarantees) at least two filtered heads, and is the only one. -/
theorem C1_resolver_exactly_once {RErr : Type} :
    (∀ (env : Env RErr) ids1 ids2 ops rtr filtered,
      env.heads1 = .ok ids1 → ids1.length ≠ 1 → env.lockResult = .ok () →
      env.heads2 = .ok ids2 → 2 ≤ ids2.length →
      readOps env.store ids2 = (.ok ops, rtr) →
      heads_ok env.store ops = .ok filtered → 2 ≤ filtered.length →
      (traceOf env).filter Event.isResolverCall =
        [.resolverCall (filtered.mergeSort byEndTimestamp)] ∧
      (filtered.mergeSort byEndTimestamp).Perm filtered ∧
      (filtered.mergeSort byEndTimestamp).Sorted
        (fun a b =>
          a.metadata.time.stop.timestamp ≤ b.metadata.time.stop.timestamp)) ∧
    (∀ env : Env RErr, (∀ i, ¬ isAncestor env.store i i) →
      ∀ e ∈ (traceOf env).filter Event.isResolverCall,
      ∃ ids1 ids2 ops rtr filtered,
        env.heads1 = .ok ids1 ∧ ids1.length ≠ 1 ∧ env.lockResult = .ok () ∧
        env.heads2 = .ok ids2 ∧ 2 ≤ ids2.length ∧
        readOps env.store ids2 = (.ok ops, rtr) ∧
        heads_ok env.store ops = .ok filtered ∧ 2 ≤ filtered.length ∧
        e = .resolverCall (filtered.mergeSort byEndTimestamp) ∧
        (traceOf env).filter Event.isResolverCall = [e]) := by
  constructor
  · intro env ids1 ids2 ops rtr filtered h1 hn hl h2 hlen hread hfilt hlen2
    have h := resolve_slow env ids1 h1 hn
    obtain ⟨hmap, htrr⟩ := readOps_ok hread
    have htrans : ∀ a b c : Operation, byEndTimestamp a b = true →
        byEndTimestamp b c = true → byEndTimestamp a c = true := by
      intro a b c hab hbc
      simp only [byEndTimestamp, decide_eq_true_eq] at *
      omega
    have htot : ∀ a b : Operation,
        (byEndTimestamp a b || byEndTimestamp b a) = true := by
      intro a b
      simp only [byEndTimestamp, Bool.or_eq_true, decide_eq_true_eq]
      omega
    refine ⟨?_, List.mergeSort_perm filtered byEndTimestamp, ?_⟩
    · rcases ids2 with _ | ⟨x, _ | ⟨y, t⟩⟩
      · simp at hlen
      · simp at hlen
      rcases filtered with _ | ⟨f1, _ | ⟨f2, ft⟩⟩
      · simp at hlen2
      · simp at hlen2
      rcases hres : env.resolver ((f1 :: f2 :: ft).mergeSort byEndTimestamp)
          with e | new_op
      · have hstr : (resolveSlowPath env).2 =
            [.lockStore, .getOpHeads] ++ rtr
              ++ [.ancestorFilter ops,
                  .resolverCall ((f1 :: f2 :: ft).mergeSort byEndTimestamp)] := by
          unfold resolveSlowPath
          simp only [hl, h2, hread, hfilt, hres]
        simp [traceOf, h, hstr, htrr, List.filter_append, List.filter_cons,
          filter_isResolverCall_reads, Event.isResolverCall]
      · have hstr : (resolveSlowPath env).2 =
            [.lockStore, .getOpHeads] ++ rtr
              ++ [.ancestorFilter ops,
                  .resolverCall ((f1 :: f2 :: ft).mergeSort byEndTimestamp),
                  .updateOpHeads
                    (ancestorIds ops (f1 :: f2 :: ft) ++ new_op.parent_ids)
                    new_op.id] := by
          unfold resolveSlowPath
          simp only [hl, h2, hread, hfilt, hres]
        simp [traceOf, h, hstr, htrr, List.filter_append, List.filter_cons,
          filter_isResolverCall_reads, Event.isResolverCall, Event.isUpdate]
    · have hp := List.sorted_mergeSort htrans htot filtered
      refine List.Pairwise.imp ?_ hp
      intro a b hab
      simpa [byEndTimestamp] using hab
  · intro env hacyc e he
    rcases hh : env.heads1 with e1 | ids1
    · simp only [traceOf, resolve_op_heads, hh] at he
      simp [Event.isResolverCall] at he
    have main : ids1.length ≠ 1 →
        ∃ ids1' ids2 ops rtr filtered,
          env.heads1 = .ok ids1' ∧ ids1'.length ≠ 1 ∧
          env.lockResult = .ok () ∧
          env.heads2 = .ok ids2 ∧ 2 ≤ ids2.length ∧
          readOps env.store ids2 = (.ok ops, rtr) ∧
          heads_ok env.store ops = .ok filtered ∧ 2 ≤ filtered.length ∧
          e = .resolverCall (filtered.mergeSort byEndTimestamp) ∧
          (traceOf env).filter Event.isResolverCall = [e] := by
      intro hn
      have h := resolve_slow env ids1 hh hn
      have hfe : (traceOf env).filter Event.isResolverCall =
          ((resolveSlowPath env).2).filter Event.isResolverCall := by
        simp [traceOf, h, List.filter_cons, Event.isResolverCall]
      rcases slowPath_resolver env with hnil |
        ⟨ids2, ops, rtr, filtered, hlck, h2, hlen, hread, hfilt, hne1, hfr⟩
      · rw [hfe, hnil] at he
        cases he
      · rw [hfe, hfr] at he
        have he' : e = .resolverCall (filtered.mergeSort byEndTimestamp) := by
          simpa using he
        have hops_ne : ops ≠ [] := by
          obtain ⟨hmap, -⟩ := readOps_ok hread
          intro hnil2
          subst hnil2
          rw [← hmap] at hlen
          simp at hlen
        have hfne : filtered ≠ [] :=
          heads_ok_ne_nil hfilt (readOps_mem hread) hacyc hops_ne
        have hlen2 : 2 ≤ filtered.length := by
          rcases filtered with _ | ⟨a1, _ | ⟨a2, tl⟩⟩
          · exact absurd rfl hfne
          · simp at hne1
          · simp
        exact ⟨ids1, ids2, ops, rtr, filtered, hh, hn, hlck, h2, hlen,
          hread, hfilt, hlen2, he', by rw [hfe, hfr, he']⟩
    rcases ids1 with _ | ⟨a, _ | ⟨c, t1⟩⟩
    · have hm := main (by simp)
      rw [hh] at hm
      exact hm
    · have hfast := resolve_fast env a hh
      simp only [traceOf, hfast] at he
      simp [Event.isResolverCall] at he
    · have hm := main (by simp)
      rw [hh] at hm
      exact hm

/-- Witness for C1: the divergent heads `{wA, wC}` produce exactly one
resolver call, on `[wA, wC]` (ascending end timestamps 20, 25). -/
theorem C1_witness :
    (traceOf { wEnv with heads1 := .ok [1, 3], heads2 := .ok [1, 3] }).filter
      Event.isResolverCall = [.resolverCall [wA, wC]] := by
  obtain ⟨hc, -, -⟩ :=
    (@C1_resolver_exactly_once Unit).1
      { wEnv with heads1 := .ok [1, 3], heads2 := .ok [1, 3] }
      [1, 3] [1, 3] [wA, wC] [.readOperation 1, .readOperation 3] [wA, wC]
      rfl (by decide) rfl rfl (by decide) rfl rfl (by decide)
  rw [hc]
  simp [List.mergeSort, List.merge, byEndTimestamp, wA, wC, wTime]
